import Mathlib

/-
Verification of the memkey in-memory key-value store (github.com/mymmrac/memkey).

The development shallowly embeds the two container variants of the Go source:

* `Store K` (memkey.go): a heterogeneous store mapping keys to dynamically
  typed values.  Go's `any` slot is modelled by `AnyVal`, a concrete type tag
  paired with a payload of the corresponding Lean type; Go's type assertion
  `raw.(V)` is modelled by `assertTy`, which performs an exact tag comparison
  for concrete target types and an implementation check for interface target
  types, exactly as Go does.
* `TypedStore K V` (typed_store.go): a homogeneous store with an optional
  parallel TTL map and a periodic expiration sweep.  One tick of the sweep
  loop of `ExpireTTL` is modelled by `TypedStore.ExpireTTLTick`.

Go maps are modelled by association lists (`lookupA`, `insertA`, `eraseA`);
a nil Go map is `Option.none`, so that lazy allocation on first write is
observable.  Reads of a nil map behave like reads of an empty map, as in Go.
`sync.Once` is modelled by a Boolean flag; time instants and durations are
integers (nanoseconds).  All operations of the source run under the store's
single mutex, so concurrent histories are modelled by their linearizations:
lists of operations applied sequentially.
-/

namespace Memkey

/-! ## Association lists standing for Go maps -/

/-- Lookup in an association list: the model of a Go map read `m[k]`. -/
def lookupA {K V : Type} [DecidableEq K] : List (K × V) → K → Option V
  | [], _ => none
  | p :: rest, key => if p.1 = key then some p.2 else lookupA rest key

/-- Insert or overwrite: the model of a Go map write `m[k] = v`. -/
def insertA {K V : Type} [DecidableEq K] (l : List (K × V)) (key : K) (v : V) :
    List (K × V) :=
  (key, v) :: l.filter (fun p => !decide (p.1 = key))

/-- Removal: the model of Go's `delete(m, k)`. -/
def eraseA {K V : Type} [DecidableEq K] (l : List (K × V)) (key : K) : List (K × V) :=
  l.filter (fun p => !decide (p.1 = key))

/-- Keys of an association list. -/
def keysA {K V : Type} (l : List (K × V)) : List K :=
  l.map Prod.fst

/-! ## The dynamic type universe of the heterogeneous store

The repository exercises its heterogeneous store with the concrete types
`int`, `float64`, `string`, the empty struct `testInterfaceImpl` and the
interface `testInterface` (common_test.go); `testInterfaceImpl` is the only
declared implementation of `testInterface`.  The universe below contains
these types; that is enough to express exact matches, mismatches and
interface assertions. -/

/-- Concrete (dynamic) Go types appearing in the repository. -/
inductive ConcreteTy : Type where
  | tInt
  | tString
  | tImpl
  deriving DecidableEq, Repr

/-- Interface types appearing in the repository (beyond `any` itself). -/
inductive IfaceTy : Type where
  | testInterface
  deriving DecidableEq, Repr

/-- Which concrete types implement which interfaces: `testInterfaceImpl` is
the only implementation of `testInterface` (common_test.go). -/
def implementsI : ConcreteTy → IfaceTy → Bool
  | .tImpl, .testInterface => true
  | _, _ => false

/-- Payload type carried by each concrete tag. -/
def interpC : ConcreteTy → Type
  | .tInt => Int
  | .tString => String
  | .tImpl => Unit

/-- Go type names as printed by `fmt.Sprintf` with the `%T` verb. -/
def tyNameC : ConcreteTy → String
  | .tInt => "int"
  | .tString => "string"
  | .tImpl => "memkey.testInterfaceImpl"

/-- A value of Go type `any`: a concrete type tag plus a payload. -/
structure AnyVal : Type where
  ty : ConcreteTy
  val : interpC ty

/-- A type a caller may request at a call site of `Get`, `Has`, `Delete`,
`Len`, ...: either a concrete type or an interface type. -/
inductive GoTy : Type where
  | conc (t : ConcreteTy)
  | iface (i : IfaceTy)
  deriving DecidableEq, Repr

/-- Lean type of a Go value whose static type is `g`.  A variable of an
interface type holds `none` (Go's nil interface) or a dynamic value. -/
def interpG : GoTy → Type
  | .conc t => interpC t
  | .iface _ => Option AnyVal

/-- Zero value of a concrete type. -/
def zeroC : (t : ConcreteTy) → interpC t
  | .tInt => (0 : Int)
  | .tString => ""
  | .tImpl => ()

/-- Zero value of a requested type: the model of the source's `zero[T]()`
utility (the zero of an interface type is the nil interface). -/
def zero : (g : GoTy) → interpG g
  | .conc t => zeroC t
  | .iface _ => none

/-- Go type assertion `raw.(V)` for a requested type `g`: for a concrete
target the dynamic tag must equal the target exactly; for an interface
target the dynamic type must implement the interface, and the result is the
dynamic value seen through the interface. -/
def assertTy (raw : AnyVal) : (g : GoTy) → Option (interpG g)
  | .conc t => if h : raw.ty = t then some (h ▸ raw.val) else none
  | .iface i => if implementsI raw.ty i then some (some raw) else none

/-- Spec-side predicate (from the specification's words): requested type `g`
"matches" stored concrete type `ty`.  Exact tag equality for a concrete
request; implementation of the interface for an interface request. -/
def typeMatches (g : GoTy) (ty : ConcreteTy) : Bool :=
  match g with
  | .conc t => decide (ty = t)
  | .iface i => implementsI ty i

/-! ## The heterogeneous store (memkey.go) -/

/-- The `Store[K]` structure: `data` is the backing map (`none` while still
unallocated), `initDone` is the state of the `sync.Once` guard. -/
structure Store (K : Type) : Type where
  data : Option (List (K × AnyVal)) := none
  initDone : Bool := false

/-- A `Store` as Go's zero value: nil map, unfired `sync.Once`. -/
def zeroStore {K : Type} : Store K := {}

/-- Contents seen by a read: a nil map reads as an empty map, as in Go. -/
def Store.dataList {K : Type} (s : Store K) : List (K × AnyVal) :=
  s.data.getD []

/-- An entry, as returned by `Entries`. -/
structure Entry (K V : Type) : Type where
  Key : K
  Value : V

/-- Function `Get[V, K]` (memkey.go:25): typed read with type assertion. -/
def Get {K : Type} [DecidableEq K] (g : GoTy) (store : Store K) (key : K) :
    interpG g × Bool :=
  match lookupA store.dataList key with
  | none => (zero g, false)
  | some rawValue =>
    match assertTy rawValue g with
    | none => (zero g, false)
    | some value => (value, true)

/-- Method `Store.Get` (memkey.go:43): raw read, no type check. -/
def Store.Get {K : Type} [DecidableEq K] (s : Store K) (key : K) :
    Option AnyVal × Bool :=
  match lookupA s.dataList key with
  | none => (none, false)
  | some rawValue => (some rawValue, true)

/-- True exactly when a call of `Set` on `s` would allocate the backing map
(the body of the `init.Do` block runs and finds a nil map). -/
def Store.allocOnSet {K : Type} (s : Store K) : Bool :=
  !s.initDone && s.data.isNone

/-- Function `Set[V, K]` (memkey.go:56): write, with once-guarded lazy
allocation of the backing map. -/
def Set {K : Type} [DecidableEq K] (store : Store K) (key : K) (value : AnyVal) :
    Store K :=
  { store with
    initDone := true
    data := some (insertA store.dataList key value) }

/-- Method `Store.TypeName` (memkey.go:89, named `Type` in the source, which
is reserved in Lean): name of the stored dynamic type. -/
def Store.TypeName {K : Type} [DecidableEq K] (s : Store K) (key : K) :
    String × Bool :=
  match lookupA s.dataList key with
  | none => ("", false)
  | some data => (tyNameC data.ty, true)

/-- Function `TypeName[K]` (memkey.go:84, named `Type` in the source):
delegates to the method. -/
def TypeName {K : Type} [DecidableEq K] (store : Store K) (key : K) :
    String × Bool :=
  store.TypeName key

/-- Function `Has[V, K]` (memkey.go:102): typed membership test. -/
def Has {K : Type} [DecidableEq K] (g : GoTy) (store : Store K) (key : K) : Bool :=
  match lookupA store.dataList key with
  | none => false
  | some data => (assertTy data g).isSome

/-- Method `Store.Has` (memkey.go:116): untyped membership test. -/
def Store.Has {K : Type} [DecidableEq K] (s : Store K) (key : K) : Bool :=
  (lookupA s.dataList key).isSome

/-- Function `Delete[V, K]` (memkey.go:125): removes the entry only when it
exists and the type assertion succeeds; returns the updated store and
whether removal occurred. -/
def Delete {K : Type} [DecidableEq K] (g : GoTy) (store : Store K) (key : K) :
    Store K × Bool :=
  match lookupA store.dataList key with
  | none => (store, false)
  | some data =>
    match assertTy data g with
    | none => (store, false)
    | some _ => ({ store with data := some (eraseA store.dataList key) }, true)

/-- Method `Store.Delete` (memkey.go:144): removes the entry regardless of
its type, reporting whether it was present. -/
def Store.Delete {K : Type} [DecidableEq K] (s : Store K) (key : K) :
    Store K × Bool :=
  match lookupA s.dataList key with
  | none => (s, false)
  | some _ => ({ s with data := some (eraseA s.dataList key) }, true)

/-- Function `Len[V, K]` (memkey.go:158): counts entries whose value passes
the type assertion. -/
def Len {K : Type} [DecidableEq K] (g : GoTy) (store : Store K) : Nat :=
  store.dataList.countP (fun p => (assertTy p.2 g).isSome)

/-- Method `Store.Len` (memkey.go:175): total number of entries. -/
def Store.Len {K : Type} (s : Store K) : Nat :=
  s.dataList.length

/-- Function `Keys[V, K]` (memkey.go:183): keys of entries passing the type
assertion. -/
def Keys {K : Type} [DecidableEq K] (g : GoTy) (store : Store K) : List K :=
  (store.dataList.filter (fun p => (assertTy p.2 g).isSome)).map Prod.fst

/-- Method `Store.Keys` (memkey.go:200): all keys. -/
def Store.Keys {K : Type} (s : Store K) : List K :=
  s.dataList.map Prod.fst

/-- Function `Values[V, K]` (memkey.go:213): values passing the type
assertion, seen at the requested type. -/
def Values {K : Type} [DecidableEq K] (g : GoTy) (store : Store K) :
    List (interpG g) :=
  store.dataList.filterMap (fun p => assertTy p.2 g)

/-- Method `Store.Values` (memkey.go:228): all raw values. -/
def Store.Values {K : Type} (s : Store K) : List AnyVal :=
  s.dataList.map Prod.snd

/-- Function `Entries[V, K]` (memkey.go:241): key-value pairs passing the
type assertion. -/
def Entries {K : Type} [DecidableEq K] (g : GoTy) (store : Store K) :
    List (Entry K (interpG g)) :=
  store.dataList.filterMap
    (fun p => (assertTy p.2 g).map (fun value => Entry.mk p.1 value))

/-- Method `Store.Entries` (memkey.go:259): all key-value pairs. -/
def Store.Entries {K : Type} (s : Store K) : List (Entry K AnyVal) :=
  s.dataList.map (fun p => Entry.mk p.1 p.2)

/-- Stored dynamic type of the entry at `key`, if any: spec-side view used
to phrase the exact-type-match claims. -/
def storedTy {K : Type} [DecidableEq K] (s : Store K) (key : K) :
    Option ConcreteTy :=
  (lookupA s.dataList key).map AnyVal.ty

/-- Spec-side predicate: an entry for `key` exists and its stored dynamic
type matches the requested type `g` (in the sense of `typeMatches`). -/
def storedMatches {K : Type} [DecidableEq K] (g : GoTy) (s : Store K)
    (key : K) : Bool :=
  match lookupA s.dataList key with
  | some raw => typeMatches g raw.ty
  | none => false

/-- Running a linearized history of `Set` calls (each a key-value pair)
against a heterogeneous store. -/
def runSets {K : Type} [DecidableEq K] (s : Store K) :
    List (K × AnyVal) → Store K
  | [] => s
  | w :: rest => runSets (Set s w.1 w.2) rest

/-- Number of backing-map allocations performed along a linearized history
of `Set` calls. -/
def setAllocs {K : Type} [DecidableEq K] (s : Store K) :
    List (K × AnyVal) → Nat
  | [] => 0
  | w :: rest => (if s.allocOnSet then 1 else 0) + setAllocs (Set s w.1 w.2) rest

/-! ## The homogeneous store with TTL (typed_store.go) -/

/-- The `TypedStore[K, V]` structure: backing map `data` guarded by the
`init` once-flag, parallel expiry map `ttl` guarded by the `initTTL`
once-flag.  A `none` map is still unallocated (nil). -/
structure TypedStore (K V : Type) : Type where
  data : Option (List (K × V)) := none
  initDone : Bool := false
  ttl : Option (List (K × Int)) := none
  initTTLDone : Bool := false

/-- A `TypedStore` as Go's zero value. -/
def zeroTS {K V : Type} : TypedStore K V := {}

/-- Contents of the backing map as seen by a read (nil reads as empty). -/
def TypedStore.dataList {K V : Type} (s : TypedStore K V) : List (K × V) :=
  s.data.getD []

/-- Contents of the expiry map as seen by a read (nil reads as empty). -/
def TypedStore.ttlList {K V : Type} (s : TypedStore K V) : List (K × Int) :=
  s.ttl.getD []

/-- Method `TypedStore.Get` (typed_store.go:19): a plain map read; a missing
key yields the zero value of `V` and `false`. -/
def TypedStore.Get {K V : Type} [DecidableEq K] [Inhabited V]
    (s : TypedStore K V) (key : K) : V × Bool :=
  match lookupA s.dataList key with
  | none => (default, false)
  | some value => (value, true)

/-- Method `TypedStore.Set` (typed_store.go:28): write with once-guarded
lazy allocation of the backing map; the expiry map is not touched. -/
def TypedStore.Set {K V : Type} [DecidableEq K] (s : TypedStore K V)
    (key : K) (value : V) : TypedStore K V :=
  { s with
    initDone := true
    data := some (insertA s.dataList key value) }

/-- Method `TypedStore.SetWithTTL` (typed_store.go:42): write plus an expiry
record at `now + ttl`; lazily allocates both maps. -/
def TypedStore.SetWithTTL {K V : Type} [DecidableEq K] (s : TypedStore K V)
    (key : K) (value : V) (ttl : Int) (now : Int) : TypedStore K V :=
  { s with
    initDone := true
    initTTLDone := true
    data := some (insertA s.dataList key value)
    ttl := some (insertA s.ttlList key (now + ttl)) }

/-- True when the expiry map records an instant strictly before `now` for
`key`: the eviction condition `v.Before(now)` of the sweep. -/
def isExpired {K : Type} [DecidableEq K] (ttl : List (K × Int)) (now : Int)
    (key : K) : Bool :=
  match lookupA ttl key with
  | some t => decide (t < now)
  | none => false

/-- One tick of the sweep loop of `TypedStore.ExpireTTL` (typed_store.go:63)
at instant `now`.  The once-guarded allocation of the expiry map that the
source performs when `ExpireTTL` starts is folded into the tick (the guard
makes it idempotent).  The tick removes every entry whose recorded instant
is strictly before `now` from both maps and returns the callback invocations
`(key, value read from the backing map before removal)` the source makes;
as in Go, a key missing from the backing map reads as the zero value. -/
def TypedStore.ExpireTTLTick {K V : Type} [DecidableEq K] [Inhabited V]
    (s : TypedStore K V) (now : Int) : TypedStore K V × List (K × V) :=
  (({ s with
      initTTLDone := true
      data := s.data.map (fun l => l.filter (fun p => !isExpired s.ttlList now p.1))
      ttl := some (s.ttlList.filter (fun p => !decide (p.2 < now))) }),
   (s.ttlList.filter (fun p => decide (p.2 < now))).map
     (fun p => (p.1, (lookupA s.dataList p.1).getD default)))

/-- Method `TypedStore.Has` (typed_store.go:89). -/
def TypedStore.Has {K V : Type} [DecidableEq K] (s : TypedStore K V)
    (key : K) : Bool :=
  (lookupA s.dataList key).isSome

/-- Method `TypedStore.Delete` (typed_store.go:98): removes the key from the
backing map if present; the expiry map is not touched. -/
def TypedStore.Delete {K V : Type} [DecidableEq K] (s : TypedStore K V)
    (key : K) : TypedStore K V × Bool :=
  match lookupA s.dataList key with
  | none => (s, false)
  | some _ => ({ s with data := some (eraseA s.dataList key) }, true)

/-- Method `TypedStore.Len` (typed_store.go:112). -/
def TypedStore.Len {K V : Type} (s : TypedStore K V) : Nat :=
  s.dataList.length

/-- Invariant of claim C2, as a Boolean: every key of the expiry map is also
present in the backing map. -/
def ttlSubB {K V : Type} [DecidableEq K] (s : TypedStore K V) : Bool :=
  s.ttlList.all (fun p => (lookupA s.dataList p.1).isSome)

/-! ## Linearized histories over a `TypedStore` -/

/-- One operation of a linearized history: a plain write, a TTL write (with
the `time.Now()` the source reads), an untyped delete, or one sweep tick. -/
inductive TOp (K V : Type) : Type where
  | set (key : K) (value : V)
  | setWithTTL (key : K) (value : V) (ttl : Int) (now : Int)
  | del (key : K)
  | tick (now : Int)

/-- Effect of one operation on the store state. -/
def stepT {K V : Type} [DecidableEq K] [Inhabited V] (s : TypedStore K V) :
    TOp K V → TypedStore K V
  | .set key value => s.Set key value
  | .setWithTTL key value ttl now => s.SetWithTTL key value ttl now
  | .del key => (s.Delete key).1
  | .tick now => (s.ExpireTTLTick now).1

/-- Running a linearized history left to right. -/
def runT {K V : Type} [DecidableEq K] [Inhabited V] (s : TypedStore K V) :
    List (TOp K V) → TypedStore K V
  | [] => s
  | op :: rest => runT (stepT s op) rest

/-- Operations that write the backing map (and hence run its once-guarded
allocation): `Set` and `SetWithTTL`. -/
def isDataWrite {K V : Type} : TOp K V → Bool
  | .set _ _ => true
  | .setWithTTL _ _ _ _ => true
  | _ => false

/-- Operations that run the once-guarded allocation of the expiry map:
`SetWithTTL` and the sweep. -/
def isTTLWrite {K V : Type} : TOp K V → Bool
  | .setWithTTL _ _ _ _ => true
  | .tick _ => true
  | _ => false

/-- True exactly when executing `op` on `s` allocates the backing map. -/
def allocDataAt {K V : Type} (s : TypedStore K V) (op : TOp K V) : Bool :=
  isDataWrite op && !s.initDone && s.data.isNone

/-- True exactly when executing `op` on `s` allocates the expiry map. -/
def allocTTLAt {K V : Type} (s : TypedStore K V) (op : TOp K V) : Bool :=
  isTTLWrite op && !s.initTTLDone && s.ttl.isNone

/-- Number of backing-map allocations along a history. -/
def dataAllocsT {K V : Type} [DecidableEq K] [Inhabited V] (s : TypedStore K V) :
    List (TOp K V) → Nat
  | [] => 0
  | op :: rest => (if allocDataAt s op then 1 else 0) + dataAllocsT (stepT s op) rest

/-- Number of expiry-map allocations along a history. -/
def ttlAllocsT {K V : Type} [DecidableEq K] [Inhabited V] (s : TypedStore K V) :
    List (TOp K V) → Nat
  | [] => 0
  | op :: rest => (if allocTTLAt s op then 1 else 0) + ttlAllocsT (stepT s op) rest

/-- True for operations that neither insert a TTL record for `B` nor delete
`B`: the history restriction of claim C4 ("`B` inserted only via plain
set", never TTL-tagged, never explicitly deleted). -/
def opAvoids {K V : Type} [DecidableEq K] (B : K) : TOp K V → Bool
  | .setWithTTL key _ _ _ => !decide (key = B)
  | .del key => !decide (key = B)
  | _ => true

/-- Value written by the last plain `set` on key `B` in a history (later
operations take precedence). -/
def lastSetVal {K V : Type} [DecidableEq K] : List (TOp K V) → K → Option V
  | [], _ => none
  | op :: rest, B =>
    match lastSetVal rest B with
    | some v => some v
    | none =>
      match op with
      | .set key value => if key = B then some value else none
      | _ => none

/-! ## Concrete stores used by counterexamples and witnesses -/

/-- A heterogeneous store holding, at key 1, a value whose concrete type is
`testInterfaceImpl`. -/
def sImplAt1 : Store Int :=
  Set zeroStore 1 ⟨.tImpl, ()⟩

/-- A heterogeneous store holding, at key 2, a value whose concrete type is
`testInterfaceImpl`. -/
def sImplAt2 : Store Int :=
  Set zeroStore 2 ⟨.tImpl, ()⟩

/-- A typed store holding key 1 with value 10 and a TTL record expiring at
instant 105 (written at instant 100 with TTL 5). -/
def sTTL1 : TypedStore Int Int :=
  TypedStore.SetWithTTL zeroTS 1 10 5 100

/-! ## Lemmas about the association-list map operations -/

theorem lookupA_filter_key {K V : Type} [DecidableEq K] (f : K → Bool)
    (l : List (K × V)) (k : K) :
    lookupA (l.filter (fun p => f p.1)) k = if f k then lookupA l k else none := by
  induction l with
  | nil => simp [lookupA]
  | cons p rest ih =>
    by_cases hp : f p.1
    · rw [List.filter_cons_of_pos (by simpa using hp)]
      by_cases hk : p.1 = k
      · subst hk
        simp [lookupA, hp]
      · simp [lookupA, hk, ih]
    · rw [List.filter_cons_of_neg (by simpa using hp)]
      by_cases hk : p.1 = k
      · subst hk
        simp [lookupA, hp, ih]
      · simp [lookupA, hk, ih]

theorem lookupA_insertA {K V : Type} [DecidableEq K] (l : List (K × V))
    (key k : K) (v : V) :
    lookupA (insertA l key v) k = if key = k then some v else lookupA l k := by
  by_cases h : key = k
  · subst h
    simp [insertA, lookupA]
  · have hf := lookupA_filter_key (fun x => !decide (x = key)) l k
    have hk : k ≠ key := fun hkk => h (Eq.symm hkk)
    simp [hk] at hf
    simp [insertA, lookupA, h, hf]

theorem lookupA_eraseA {K V : Type} [DecidableEq K] (l : List (K × V))
    (key k : K) :
    lookupA (eraseA l key) k = if key = k then none else lookupA l k := by
  have hf := lookupA_filter_key (fun x => !decide (x = key)) l k
  by_cases h : key = k
  · subst h
    simp at hf
    simpa [eraseA] using hf
  · have hk : k ≠ key := fun hkk => h (Eq.symm hkk)
    simp [hk] at hf
    simpa [eraseA, h] using hf

theorem lookupA_eq_none_iff {K V : Type} [DecidableEq K] (l : List (K × V))
    (k : K) :
    lookupA l k = none ↔ k ∉ keysA l := by
  induction l with
  | nil => simp [lookupA, keysA]
  | cons p rest ih =>
    by_cases h : p.1 = k
    · subst h
      simp [lookupA, keysA]
    · have h' : ¬ k = p.1 := fun he => h (Eq.symm he)
      simp [lookupA, keysA, h, h', ih]

theorem lookupA_filter_of_none {K V : Type} [DecidableEq K]
    (f : K × V → Bool) {l : List (K × V)} {k : K}
    (h : lookupA l k = none) : lookupA (l.filter f) k = none := by
  rw [lookupA_eq_none_iff] at h ⊢
  intro hmem
  exact h (List.Sublist.subset (List.Sublist.map Prod.fst (List.filter_sublist l)) hmem)

theorem mem_of_lookupA {K V : Type} [DecidableEq K] {l : List (K × V)}
    {k : K} {v : V} (h : lookupA l k = some v) : (k, v) ∈ l := by
  induction l with
  | nil => simp [lookupA] at h
  | cons p rest ih =>
    by_cases hk : p.1 = k
    · rw [show p = (p.1, p.2) from rfl] at *
      simp only [lookupA, if_pos hk] at h
      obtain rfl : p.2 = v := by injection h
      subst hk
      exact List.mem_cons_self _ _
    · simp only [lookupA, if_neg hk] at h
      exact List.mem_cons_of_mem _ (ih h)

theorem lookupA_of_mem {K V : Type} [DecidableEq K] {l : List (K × V)}
    (hnd : (keysA l).Nodup) {p : K × V} (hp : p ∈ l) :
    lookupA l p.1 = some p.2 := by
  induction l with
  | nil => simp at hp
  | cons q rest ih =>
    simp only [keysA, List.map_cons, List.nodup_cons] at hnd
    rcases List.mem_cons.mp hp with hq | hq
    · subst hq
      simp [lookupA]
    · have hne : q.1 ≠ p.1 := by
        intro he
        exact hnd.1 (he ▸ List.mem_map_of_mem Prod.fst hq)
      simp only [lookupA, if_neg hne]
      exact ih hnd.2 hq

theorem lookupA_filter_nodup {K V : Type} [DecidableEq K]
    (f : K × V → Bool) {l : List (K × V)} (hnd : (keysA l).Nodup) (k : K) :
    lookupA (l.filter f) k =
      match lookupA l k with
      | some v => if f (k, v) then some v else none
      | none => none := by
  induction l with
  | nil => simp [lookupA]
  | cons p rest ih =>
    simp only [keysA, List.map_cons, List.nodup_cons] at hnd
    by_cases hk : p.1 = k
    · subst hk
      have hrest : lookupA rest p.1 = none := by
        rw [lookupA_eq_none_iff]
        exact hnd.1
      by_cases hf : f p
      · rw [List.filter_cons_of_pos (by simpa using hf)]
        rw [show p = (p.1, p.2) from rfl] at hf
        simp [lookupA, hf]
      · rw [List.filter_cons_of_neg (by simpa using hf)]
        rw [show p = (p.1, p.2) from rfl] at hf
        simp [lookupA, hf, lookupA_filter_of_none f hrest]
    · by_cases hf : f p
      · rw [List.filter_cons_of_pos (by simpa using hf)]
        simp only [lookupA, if_neg hk]
        exact ih hnd.2
      · rw [List.filter_cons_of_neg (by simpa using hf)]
        simp only [lookupA, if_neg hk]
        exact ih hnd.2

theorem mem_insertA {K V : Type} [DecidableEq K] {l : List (K × V)}
    {key : K} {v : V} {p : K × V} (hp : p ∈ insertA l key v) :
    p = (key, v) ∨ p ∈ l := by
  rcases List.mem_cons.mp hp with h | h
  · exact Or.inl h
  · exact Or.inr (List.filter_sublist l |>.subset h)

theorem keysA_filter_sublist {K V : Type} (f : K × V → Bool) (l : List (K × V)) :
    List.Sublist (keysA (l.filter f)) (keysA l) :=
  List.Sublist.map Prod.fst (List.filter_sublist l)

theorem count_map_filter_zero {K V : Type} [DecidableEq K] [DecidableEq V]
    (g : K × Int → Bool) (f : K → V) {l : List (K × Int)} {k : K}
    (h : k ∉ keysA l) (x : V) :
    ((l.filter g).map (fun p => (p.1, f p.1))).count (k, x) = 0 := by
  rw [List.count_eq_zero]
  intro hmem
  rcases List.mem_map.mp hmem with ⟨q, hq, he⟩
  have hq1 : q.1 = k := by
    have := congrArg Prod.fst he
    simpa using this
  exact h (hq1 ▸ List.mem_map_of_mem Prod.fst ((List.filter_sublist l).subset hq))

theorem count_cb {K V : Type} [DecidableEq K] [DecidableEq V]
    (now : Int) (f : K → V) {l : List (K × Int)} {k : K} {t : Int}
    (hnd : (keysA l).Nodup) (hl : lookupA l k = some t) (ht : t < now) :
    ((l.filter (fun p => decide (p.2 < now))).map (fun p => (p.1, f p.1))).count
      (k, f k) = 1 := by
  induction l with
  | nil => simp [lookupA] at hl
  | cons p rest ih =>
    simp only [keysA, List.map_cons, List.nodup_cons] at hnd
    by_cases hk : p.1 = k
    · have hpt : p.2 = t := by
        simp only [lookupA, if_pos hk] at hl
        injection hl
      have hkeep : decide (p.2 < now) = true := by
        rw [hpt]
        exact decide_eq_true ht
      rw [List.filter_cons_of_pos (by simpa using hkeep)]
      have hzero :
          ((rest.filter (fun p => decide (p.2 < now))).map
            (fun p => (p.1, f p.1))).count (k, f k) = 0 :=
        count_map_filter_zero _ f (hk ▸ hnd.1) _
      simp [List.count_cons, hzero, hk]
    · have hl' : lookupA rest k = some t := by
        simpa [lookupA, hk] using hl
      by_cases hkeep : decide (p.2 < now) = true
      · rw [List.filter_cons_of_pos (by simpa using hkeep)]
        have hne : ¬ ((k, f k) = (p.1, f p.1)) := by
          intro he
          exact hk (Eq.symm (congrArg Prod.fst he))
        simp [List.count_cons, hne, ih hnd.2 hl']
      · rw [List.filter_cons_of_neg (by simpa using hkeep)]
        exact ih hnd.2 hl'

/-! ## Lemmas about single operations of the stores -/

theorem tick_ttlList {K V : Type} [DecidableEq K] [Inhabited V]
    (s : TypedStore K V) (now : Int) :
    (s.ExpireTTLTick now).1.ttlList = s.ttlList.filter (fun p => !decide (p.2 < now)) :=
  rfl

theorem tick_lookup_data {K V : Type} [DecidableEq K] [Inhabited V]
    (s : TypedStore K V) (now : Int) (k : K) :
    lookupA (s.ExpireTTLTick now).1.dataList k =
      if isExpired s.ttlList now k then none else lookupA s.dataList k := by
  cases hd : s.data with
  | none =>
    have h1 : (s.ExpireTTLTick now).1.dataList = [] := by
      simp [TypedStore.ExpireTTLTick, TypedStore.dataList, hd]
    have h2 : s.dataList = [] := by
      simp [TypedStore.dataList, hd]
    rw [h1, h2]
    cases isExpired s.ttlList now k <;> simp [lookupA]
  | some l =>
    have h1 : (s.ExpireTTLTick now).1.dataList =
        l.filter (fun p => !isExpired s.ttlList now p.1) := by
      simp [TypedStore.ExpireTTLTick, TypedStore.dataList, hd]
    have h2 : s.dataList = l := by
      simp [TypedStore.dataList, hd]
    rw [h1, h2]
    have hf := lookupA_filter_key (fun x => !isExpired s.ttlList now x) l k
    cases he : isExpired s.ttlList now k <;> simp [he] at hf <;> simp [hf]

theorem assertTy_isSome (raw : AnyVal) (g : GoTy) :
    (assertTy raw g).isSome = typeMatches g raw.ty := by
  cases g with
  | conc t =>
    by_cases h : raw.ty = t <;> simp [assertTy, typeMatches, h]
  | iface i =>
    by_cases h : implementsI raw.ty i <;> simp [assertTy, typeMatches, h]

/-! ## Claim theorems -/

/-- Claim C1 (amended).  The typed `Get` of the heterogeneous store returns
`found = true` exactly when an entry exists for the key and the requested
type matches the stored dynamic type: exact concrete-type equality when the
requested type is a concrete type (no numeric coercion), and interface
implementation when the requested type is an interface (so interface
requests DO coerce, contrary to the claim as stated).  `Has` agrees with
`Get`'s flag, and whenever the flag is `false` the returned value is the
zero value of the requested type. -/
theorem get_found_iff_typeMatches {K : Type} [DecidableEq K]
    (s : Store K) (k : K) (g : GoTy) :
    ((Get g s k).2 = true ↔
      ∃ raw, lookupA s.dataList k = some raw ∧ typeMatches g raw.ty = true) ∧
    (Has g s k = (Get g s k).2) ∧
    ((Get g s k).2 = false → Get g s k = (zero g, false)) := by
  cases hl : lookupA s.dataList k with
  | none =>
    refine ⟨?_, ?_, ?_⟩
    · simp [Get, hl]
    · simp [Get, Has, hl]
    · intro _
      simp [Get, hl]
  | some raw =>
    have hs := assertTy_isSome raw g
    cases ha : assertTy raw g with
    | none =>
      rw [ha] at hs
      refine ⟨?_, ?_, ?_⟩
      · simp only [Get, hl, ha]
        constructor
        · intro h
          exact absurd h (by simp)
        · rintro ⟨raw', hraw', hm⟩
          obtain rfl : raw = raw' := by injection hraw'
          rw [hm] at hs
          exact absurd hs (by simp)
      · simp [Get, Has, hl, ha, Eq.symm hs]
      · intro _
        simp [Get, hl, ha]
    | some v =>
      rw [ha] at hs
      refine ⟨?_, ?_, ?_⟩
      · simp only [Get, hl, ha]
        constructor
        · intro _
          exact ⟨raw, rfl, Eq.symm hs⟩
        · intro _
          trivial
      · simp [Get, Has, hl, ha]
      · intro h
        simp [Get, hl, ha] at h

/-- Witness for C1's amended theorem: on a store holding a
`testInterfaceImpl` value at key 1, a `Get` at key 2 with requested type
`int` reports `false` and returns `int`'s zero value, and the interface
request at key 1 succeeds because the stored type implements it. -/
theorem get_found_iff_typeMatches_witness :
    Get (.conc .tInt) sImplAt1 2 = (zero (.conc .tInt), false) ∧
    (∃ raw, lookupA sImplAt1.dataList 1 = some raw ∧
      typeMatches (.iface .testInterface) raw.ty = true) := by
  constructor
  · exact (get_found_iff_typeMatches sImplAt1 2 (.conc .tInt)).2.2 rfl
  · exact (get_found_iff_typeMatches sImplAt1 1 (.iface .testInterface)).1.mp rfl

/-- Counterexample to claim C1 as stated.  After storing a value of
concrete type `testInterfaceImpl` at key 1, `Get` and `Has` with requested
type `testInterface` succeed even though the requested type is an interface
type and not the stored concrete type: Go's type assertion performs
interface coercion, which the claim rules out. -/
theorem get_iface_coercion_cex :
    lookupA sImplAt1.dataList 1 = some ⟨.tImpl, ()⟩ ∧
    (Get (.iface .testInterface) sImplAt1 1).2 = true ∧
    Has (.iface .testInterface) sImplAt1 1 = true ∧
    GoTy.iface .testInterface ≠ GoTy.conc ConcreteTy.tImpl :=
  ⟨rfl, rfl, rfl, by decide⟩

/-- Claim C6 (amended).  The typed `Delete` of the heterogeneous store
removes the entry and returns `true` exactly when an entry exists and the
stored dynamic type matches the requested type (`typeMatches`: exact
concrete-type equality for a concrete request, interface implementation for
an interface request); in every other case it returns `false` and leaves
the store completely unchanged. -/
theorem delete_typed_spec {K : Type} [DecidableEq K]
    (s : Store K) (k : K) (g : GoTy) :
    Delete g s k =
      if storedMatches g s k
      then ({ s with data := some (eraseA s.dataList k) }, true)
      else (s, false) := by
  cases hl : lookupA s.dataList k with
  | none =>
    simp [Delete, storedMatches, hl]
  | some raw =>
    have hs := assertTy_isSome raw g
    cases ha : assertTy raw g with
    | none =>
      rw [ha] at hs
      simp [Delete, storedMatches, hl, ha, Eq.symm hs]
    | some v =>
      rw [ha] at hs
      simp [Delete, storedMatches, hl, ha, Eq.symm hs]

/-- Counterexample to claim C6 as stated.  After storing a value of
concrete type `testInterfaceImpl` at key 2, `Delete` with the requested
interface type `testInterface` returns `true` and actually removes the
entry, although the requested type differs from the stored concrete type:
deletion is gated by Go's type assertion, which coerces to implemented
interfaces. -/
theorem delete_iface_coercion_cex :
    lookupA sImplAt2.dataList 2 = some ⟨.tImpl, ()⟩ ∧
    (Delete (.iface .testInterface) sImplAt2 2).2 = true ∧
    lookupA (Delete (.iface .testInterface) sImplAt2 2).1.dataList 2 = none ∧
    GoTy.iface .testInterface ≠ GoTy.conc ConcreteTy.tImpl :=
  ⟨rfl, rfl, rfl, by decide⟩

/-- Claim C7.  For every store state, the typed count `Len[T]` for a
concrete type `T` equals the number of entries whose stored dynamic type is
exactly `T`, and the untyped `Store.Len` equals the total number of
entries. -/
theorem len_count_spec {K : Type} [DecidableEq K] (s : Store K) :
    (∀ t : ConcreteTy,
      Len (.conc t) s = s.dataList.countP (fun p => decide (p.2.ty = t))) ∧
    Store.Len s = s.dataList.length := by
  refine ⟨fun t => ?_, rfl⟩
  unfold Len
  refine List.countP_congr (fun p _ => ?_)
  rw [assertTy_isSome]
  rfl

theorem delete_of_absent {K : Type} [DecidableEq K] (g : GoTy) (s : Store K)
    (k : K) (h : lookupA s.dataList k = none) : Delete g s k = (s, false) := by
  simp [Delete, h]

theorem storeDelete_of_absent {K : Type} [DecidableEq K] (s : Store K)
    (k : K) (h : lookupA s.dataList k = none) : Store.Delete s k = (s, false) := by
  simp [Store.Delete, h]

/-- Claim C5.  For a key with no entry, `Get` returns the zero value with
`false`, both membership tests return `false`, and both deletes return
`false` leaving the store unchanged; moreover any delete that reports
success leaves the key absent, so an immediately repeated delete returns
`false` on the unchanged store (no error condition exists: every outcome is
a Boolean). -/
theorem absent_key_spec {K : Type} [DecidableEq K]
    (s : Store K) (k : K) (g : GoTy) :
    (lookupA s.dataList k = none →
      Get g s k = (zero g, false) ∧ Has g s k = false ∧ Store.Has s k = false ∧
      Delete g s k = (s, false) ∧ Store.Delete s k = (s, false)) ∧
    ((Delete g s k).2 = true →
      Delete g (Delete g s k).1 k = ((Delete g s k).1, false)) ∧
    ((Store.Delete s k).2 = true →
      Store.Delete (Store.Delete s k).1 k = ((Store.Delete s k).1, false)) := by
  refine ⟨fun hl => ?_, fun hd => ?_, fun hd => ?_⟩
  · exact ⟨by simp [Get, hl], by simp [Has, hl], by simp [Store.Has, hl],
      by simp [Delete, hl], by simp [Store.Delete, hl]⟩
  · cases hl : lookupA s.dataList k with
    | none => simp [Delete, hl] at hd
    | some raw =>
      cases ha : assertTy raw g with
      | none => simp [Delete, hl, ha] at hd
      | some v =>
        have hgone : lookupA (Delete g s k).1.dataList k = none := by
          simp only [Delete, hl, ha]
          have : ({ s with data := some (eraseA s.dataList k) } : Store K).dataList =
              eraseA s.dataList k := rfl
          rw [this, lookupA_eraseA]
          simp
        exact delete_of_absent g (Delete g s k).1 k hgone
  · cases hl : lookupA s.dataList k with
    | none => simp [Store.Delete, hl] at hd
    | some raw =>
      have hgone : lookupA (Store.Delete s k).1.dataList k = none := by
        simp only [Store.Delete, hl]
        have : ({ s with data := some (eraseA s.dataList k) } : Store K).dataList =
            eraseA s.dataList k := rfl
        rw [this, lookupA_eraseA]
        simp
      exact storeDelete_of_absent (Store.Delete s k).1 k hgone

/-- Witness for C5: on a store holding only key 1, the absent key 2 yields
zero-value and `false` results and no-op deletes, and after the successful
typed delete of key 1 a second identical delete returns `false`. -/
theorem absent_key_spec_witness :
    (Get (.conc .tInt) sImplAt1 2 = (zero (.conc .tInt), false) ∧
      Has (.conc .tInt) sImplAt1 2 = false ∧ Store.Has sImplAt1 2 = false ∧
      Delete (.conc .tInt) sImplAt1 2 = (sImplAt1, false) ∧
      Store.Delete sImplAt1 2 = (sImplAt1, false)) ∧
    Delete (.conc .tImpl) (Delete (.conc .tImpl) sImplAt1 1).1 1 =
      ((Delete (.conc .tImpl) sImplAt1 1).1, false) := by
  constructor
  · exact (absent_key_spec sImplAt1 2 (.conc .tInt)).1 rfl
  · exact (absent_key_spec sImplAt1 1 (.conc .tImpl)).2.1 rfl

/-- Claim C9.  Every read and delete operation on a zero-valued, never
written store (both internal maps still nil) is total and behaves exactly
as on an empty store: typed and raw gets return the zero value or nil with
`false`, membership tests are `false`, the type name is empty with `false`,
counts are 0, key/value/entry views are empty, and both deletes return
`false` leaving the store unchanged; likewise for the homogeneous store's
read. -/
theorem zero_store_ops_spec {K : Type} [DecidableEq K] (k : K) (g : GoTy) :
    Get g (zeroStore : Store K) k = (zero g, false) ∧
    Store.Get (zeroStore : Store K) k = (none, false) ∧
    Has g (zeroStore : Store K) k = false ∧
    Store.Has (zeroStore : Store K) k = false ∧
    TypeName (zeroStore : Store K) k = ("", false) ∧
    Len g (zeroStore : Store K) = 0 ∧
    Store.Len (zeroStore : Store K) = 0 ∧
    Keys g (zeroStore : Store K) = [] ∧
    Store.Keys (zeroStore : Store K) = [] ∧
    Values g (zeroStore : Store K) = [] ∧
    Store.Values (zeroStore : Store K) = [] ∧
    Entries g (zeroStore : Store K) = [] ∧
    Store.Entries (zeroStore : Store K) = [] ∧
    Delete g (zeroStore : Store K) k = (zeroStore, false) ∧
    Store.Delete (zeroStore : Store K) k = (zeroStore, false) ∧
    TypedStore.Get (zeroTS : TypedStore K Int) k = ((default : Int), false) :=
  ⟨rfl, rfl, rfl, rfl, rfl, rfl, rfl, rfl, rfl, rfl, rfl, rfl, rfl, rfl, rfl, rfl⟩

/-- Counterexample to claim C2 as stated.  From the reachable state written
by `SetWithTTL(1, 10, ttl 5 at instant 100)` the invariant holds, but
`Delete(1)` — one of the operations the claim says preserves it — returns
`true` while removing key 1 only from the backing map: the expiry record
`(1, 105)` survives as an orphan and the invariant is `false` afterwards. -/
theorem delete_orphans_ttl_cex :
    ttlSubB sTTL1 = true ∧
    (TypedStore.Delete sTTL1 1).2 = true ∧
    lookupA (TypedStore.Delete sTTL1 1).1.ttlList 1 = some 105 ∧
    lookupA (TypedStore.Delete sTTL1 1).1.dataList 1 = none ∧
    ttlSubB (TypedStore.Delete sTTL1 1).1 = false :=
  ⟨rfl, rfl, rfl, rfl, rfl⟩

/-- Claim C2 (amended).  The containment of the expiry map's keys in the
backing map is an invariant for `Set`, `SetWithTTL` and each sweep tick
(over states with duplicate-free expiry keys, which all reachable states
have), but NOT for `Delete`, which removes the key from the backing map
only and can orphan an expiry record. -/
theorem ttl_subset_preserved {K V : Type} [DecidableEq K] [Inhabited V]
    (s : TypedStore K V) (k : K) (v : V) (d now now2 : Int)
    (hnd : (keysA s.ttlList).Nodup) (hs : ttlSubB s = true) :
    ttlSubB (s.Set k v) = true ∧
    ttlSubB (s.SetWithTTL k v d now) = true ∧
    ttlSubB (s.ExpireTTLTick now2).1 = true := by
  rw [ttlSubB, List.all_eq_true] at hs
  refine ⟨?_, ?_, ?_⟩
  · rw [ttlSubB, List.all_eq_true]
    intro p hp
    have h1 : (s.Set k v).ttlList = s.ttlList := rfl
    have h2 : (s.Set k v).dataList = insertA s.dataList k v := rfl
    rw [h1] at hp
    rw [h2, lookupA_insertA]
    by_cases hk : k = p.1
    · simp [hk]
    · simp only [if_neg hk]
      exact hs p hp
  · rw [ttlSubB, List.all_eq_true]
    intro p hp
    have h1 : (s.SetWithTTL k v d now).ttlList = insertA s.ttlList k (now + d) := rfl
    have h2 : (s.SetWithTTL k v d now).dataList = insertA s.dataList k v := rfl
    rw [h1] at hp
    rw [h2, lookupA_insertA]
    by_cases hk : k = p.1
    · simp [hk]
    · simp only [if_neg hk]
      rcases mem_insertA hp with he | hmem
      · exact absurd (congrArg Prod.fst he).symm hk
      · exact hs p hmem
  · rw [ttlSubB, List.all_eq_true]
    intro p hp
    rw [tick_ttlList] at hp
    rcases List.mem_filter.mp hp with ⟨hmem, hkeep⟩
    have hne : ¬ p.2 < now2 := by simpa using hkeep
    have hexp : isExpired s.ttlList now2 p.1 = false := by
      rw [isExpired, lookupA_of_mem hnd hmem]
      simpa using hne
    rw [tick_lookup_data, hexp, if_neg (by simp)]
    exact hs p hmem

/-- Witness for C2's amended theorem at the concrete state `sTTL1` (one
entry, one expiry record): `Set`, `SetWithTTL` and a sweep tick each
preserve the containment invariant there. -/
theorem ttl_subset_preserved_witness :
    ttlSubB (TypedStore.Set sTTL1 2 0) = true ∧
    ttlSubB (TypedStore.SetWithTTL sTTL1 2 0 1 0) = true ∧
    ttlSubB (TypedStore.ExpireTTLTick sTTL1 0).1 = true :=
  ttl_subset_preserved sTTL1 2 0 1 0 0 (by decide) rfl

/-- Claim C3.  For a single sweep tick at instant `now`, over any state
with duplicate-free expiry keys satisfying the expiry-in-backing
containment: every key whose recorded instant is strictly before `now` is
removed from both maps and the callback list passes it exactly once,
paired with the value stored for it at the start of the tick (hence before
its removal); every key whose recorded instant is at or after `now`, and
every key without an expiry record, keeps its expiry record and its
backing-map binding unchanged; and the callback list mentions only expired
keys. -/
theorem expire_tick_spec {K V : Type} [DecidableEq K] [DecidableEq V]
    [Inhabited V] (s : TypedStore K V) (now : Int)
    (hnd : (keysA s.ttlList).Nodup) (hsub : ttlSubB s = true) :
    (∀ k t, lookupA s.ttlList k = some t → t < now →
      lookupA (s.ExpireTTLTick now).1.ttlList k = none ∧
      lookupA (s.ExpireTTLTick now).1.dataList k = none ∧
      ∃ v, lookupA s.dataList k = some v ∧
        (s.ExpireTTLTick now).2.count (k, v) = 1) ∧
    (∀ k t, lookupA s.ttlList k = some t → ¬ t < now →
      lookupA (s.ExpireTTLTick now).1.ttlList k = some t ∧
      lookupA (s.ExpireTTLTick now).1.dataList k = lookupA s.dataList k) ∧
    (∀ k, lookupA s.ttlList k = none →
      lookupA (s.ExpireTTLTick now).1.ttlList k = none ∧
      lookupA (s.ExpireTTLTick now).1.dataList k = lookupA s.dataList k) ∧
    (∀ p ∈ (s.ExpireTTLTick now).2,
      ∃ t, lookupA s.ttlList p.1 = some t ∧ t < now) := by
  have hcb : (s.ExpireTTLTick now).2 =
      (s.ttlList.filter (fun p => decide (p.2 < now))).map
        (fun p => (p.1, (lookupA s.dataList p.1).getD default)) := rfl
  rw [ttlSubB, List.all_eq_true] at hsub
  refine ⟨fun k t hl ht => ⟨?_, ?_, ?_⟩, fun k t hl ht => ⟨?_, ?_⟩,
    fun k hl => ⟨?_, ?_⟩, fun p hp => ?_⟩
  · rw [tick_ttlList, lookupA_filter_nodup _ hnd, hl]
    simp [ht]
  · rw [tick_lookup_data, isExpired, hl]
    simp [ht]
  · have hmem : (k, t) ∈ s.ttlList := mem_of_lookupA hl
    have hvs := hsub (k, t) hmem
    rcases Option.isSome_iff_exists.mp (by simpa using hvs) with ⟨v, hv⟩
    refine ⟨v, hv, ?_⟩
    have hc := count_cb now (fun x => (lookupA s.dataList x).getD default)
      hnd hl ht
    rw [hcb]
    simpa [hv] using hc
  · rw [tick_ttlList, lookupA_filter_nodup _ hnd, hl]
    simp [ht]
  · rw [tick_lookup_data, isExpired, hl]
    simp [ht]
  · rw [tick_ttlList]
    exact lookupA_filter_of_none _ hl
  · rw [tick_lookup_data, isExpired, hl]
    simp
  · rw [hcb] at hp
    rcases List.mem_map.mp hp with ⟨q, hq, he⟩
    rcases List.mem_filter.mp hq with ⟨hmem, hlt⟩
    have h1 : q.1 = p.1 := congrArg Prod.fst he
    refine ⟨q.2, ?_, by simpa using hlt⟩
    rw [← h1]
    exact lookupA_of_mem hnd hmem

/-- Witness for C3 on the concrete state `sTTL1` (key 1 expiring at 105):
a tick at instant 200 evicts key 1 from both maps and reports it exactly
once with its stored value, while a tick at instant 50 leaves both its
expiry record and its binding unchanged. -/
theorem expire_tick_spec_witness :
    (lookupA (TypedStore.ExpireTTLTick sTTL1 200).1.ttlList 1 = none ∧
     lookupA (TypedStore.ExpireTTLTick sTTL1 200).1.dataList 1 = none ∧
     ∃ v, lookupA sTTL1.dataList 1 = some v ∧
       (TypedStore.ExpireTTLTick sTTL1 200).2.count (1, v) = 1) ∧
    (lookupA (TypedStore.ExpireTTLTick sTTL1 50).1.ttlList 1 = some 105 ∧
     lookupA (TypedStore.ExpireTTLTick sTTL1 50).1.dataList 1 =
       lookupA sTTL1.dataList 1) :=
  ⟨(expire_tick_spec sTTL1 200 (by decide) (by decide)).1 1 105 rfl (by decide),
   (expire_tick_spec sTTL1 50 (by decide) (by decide)).2.1 1 105 rfl (by decide)⟩

theorem delete_ttlList_eq {K V : Type} [DecidableEq K] (s : TypedStore K V)
    (key : K) : (s.Delete key).1.ttlList = s.ttlList := by
  cases hl : lookupA s.dataList key <;>
    simp [TypedStore.Delete, hl, TypedStore.ttlList]

theorem delete_lookup_data_ne {K V : Type} [DecidableEq K]
    (s : TypedStore K V) {key B : K} (h : ¬ key = B) :
    lookupA (s.Delete key).1.dataList B = lookupA s.dataList B := by
  cases hl : lookupA s.dataList key with
  | none => simp [TypedStore.Delete, hl]
  | some v =>
    have hl' : lookupA (s.data.getD []) key = some v := hl
    simp [TypedStore.Delete, TypedStore.dataList, hl', lookupA_eraseA, h]

theorem stepT_ttl_none {K V : Type} [DecidableEq K] [Inhabited V]
    {s : TypedStore K V} {B : K} (op : TOp K V)
    (hop : opAvoids B op = true) (h0 : lookupA s.ttlList B = none) :
    lookupA (stepT s op).ttlList B = none := by
  cases op with
  | set key value => exact h0
  | setWithTTL key value ttl now =>
    have hk : ¬ key = B := by simpa [opAvoids] using hop
    have he : (s.SetWithTTL key value ttl now).ttlList =
        insertA s.ttlList key (now + ttl) := rfl
    rw [stepT, he, lookupA_insertA, if_neg hk]
    exact h0
  | del key =>
    rw [stepT, delete_ttlList_eq]
    exact h0
  | tick now =>
    rw [stepT, tick_ttlList]
    exact lookupA_filter_of_none _ h0

theorem stepT_data_at {K V : Type} [DecidableEq K] [Inhabited V]
    {s : TypedStore K V} {B : K} (op : TOp K V)
    (hop : opAvoids B op = true) (h0 : lookupA s.ttlList B = none) :
    lookupA (stepT s op).dataList B =
      (match op with
       | .set key value => if key = B then some value else lookupA s.dataList B
       | _ => lookupA s.dataList B) := by
  cases op with
  | set key value =>
    have he : (s.Set key value).dataList = insertA s.dataList key value := rfl
    rw [stepT, he, lookupA_insertA]
  | setWithTTL key value ttl now =>
    have hk : ¬ key = B := by simpa [opAvoids] using hop
    have he : (s.SetWithTTL key value ttl now).dataList =
        insertA s.dataList key value := rfl
    rw [stepT, he, lookupA_insertA, if_neg hk]
  | del key =>
    have hk : ¬ key = B := by simpa [opAvoids] using hop
    rw [stepT]
    exact delete_lookup_data_ne s hk
  | tick now =>
    have he : isExpired s.ttlList now B = false := by
      rw [isExpired, h0]
    rw [stepT, tick_lookup_data, he, if_neg (by simp)]

theorem runT_avoids {K V : Type} [DecidableEq K] [Inhabited V] (B : K) :
    ∀ (ops : List (TOp K V)) (s : TypedStore K V),
    (∀ op ∈ ops, opAvoids B op = true) →
    lookupA s.ttlList B = none →
    lookupA (runT s ops).ttlList B = none ∧
    lookupA (runT s ops).dataList B =
      (match lastSetVal ops B with
       | some v => some v
       | none => lookupA s.dataList B)
  | [], s, _, h0 => ⟨h0, rfl⟩
  | op :: rest, s, h, h0 => by
    have hop : opAvoids B op = true := h op (List.mem_cons_self _ _)
    have hrest : ∀ o ∈ rest, opAvoids B o = true :=
      fun o ho => h o (List.mem_cons_of_mem _ ho)
    have sttl := stepT_ttl_none op hop h0
    have sdata := stepT_data_at op hop h0
    have ih := runT_avoids B rest (stepT s op) hrest sttl
    refine ⟨ih.1, ?_⟩
    have hrun : runT s (op :: rest) = runT (stepT s op) rest := rfl
    rw [hrun, ih.2]
    cases hlast : lastSetVal rest B with
    | some v => simp [lastSetVal, hlast]
    | none =>
      cases op with
      | set key value =>
        simp only [lastSetVal, hlast, sdata]
        by_cases hk : key = B <;> simp [hk]
      | setWithTTL key value ttl now => simp [lastSetVal, hlast, sdata]
      | del key => simp [lastSetVal, hlast, sdata]
      | tick now => simp [lastSetVal, hlast, sdata]

/-- Claim C4.  Over any linearized history from the zero store in which key
`B` is never given a TTL record and never explicitly deleted, and whose
last plain `Set` on `B` wrote `vB`, the final state still binds `B` to
`vB` and has no expiry record for `B`: plain writes never enter the expiry
map and survive any number of sweep ticks. -/
theorem plain_set_never_evicted {K V : Type} [DecidableEq K] [Inhabited V]
    (ops : List (TOp K V)) (B : K) (vB : V)
    (havoid : ∀ op ∈ ops, opAvoids B op = true)
    (hlast : lastSetVal ops B = some vB) :
    lookupA (runT zeroTS ops).dataList B = some vB ∧
    lookupA (runT zeroTS ops).ttlList B = none := by
  have h := runT_avoids B ops zeroTS havoid rfl
  refine ⟨?_, h.1⟩
  rw [h.2, hlast]

/-- Witness for C4: in the history "plain set of key 1, TTL write of key 2,
sweep tick at instant 100 (which evicts key 2)", key 1 keeps its value and
never acquires an expiry record. -/
theorem plain_set_never_evicted_witness :
    lookupA (runT zeroTS
      [TOp.set (1 : Int) (5 : Int), TOp.setWithTTL 2 7 1 0,
       TOp.tick 100]).dataList 1 = some 5 ∧
    lookupA (runT zeroTS
      [TOp.set (1 : Int) (5 : Int), TOp.setWithTTL 2 7 1 0,
       TOp.tick 100]).ttlList 1 = none :=
  plain_set_never_evicted _ 1 5 (by decide) rfl

/-- Claim C10.  The plain `Set` never touches the expiry map, so after
`SetWithTTL(k, v1, d at now0)` followed by plain `Set(k, v2)` the original
expiration instant `now0 + d` is still recorded, and a sweep tick at any
instant after it evicts `k` from both maps while handing the callback the
overwritten value `v2`. -/
theorem set_keeps_ttl_then_evicts {K V : Type} [DecidableEq K] [Inhabited V]
    (s : TypedStore K V) (k : K) (v1 v2 : V) (d now0 now : Int)
    (h : now0 + d < now) :
    (s.Set k v2).ttl = s.ttl ∧
    lookupA ((TypedStore.SetWithTTL zeroTS k v1 d now0).Set k v2).ttlList k =
      some (now0 + d) ∧
    (((TypedStore.SetWithTTL zeroTS k v1 d now0).Set k v2).ExpireTTLTick now).2 =
      [(k, v2)] ∧
    lookupA
      ((((TypedStore.SetWithTTL zeroTS k v1 d now0).Set k v2).ExpireTTLTick
        now).1).dataList k = none ∧
    lookupA
      ((((TypedStore.SetWithTTL zeroTS k v1 d now0).Set k v2).ExpireTTLTick
        now).1).ttlList k = none := by
  refine ⟨rfl, ?_, ?_, ?_, ?_⟩ <;>
    simp [TypedStore.SetWithTTL, TypedStore.Set, TypedStore.ExpireTTLTick,
      TypedStore.dataList, TypedStore.ttlList, zeroTS, insertA, lookupA,
      isExpired, h]

/-- Witness for C10 at the concrete scenario `k = 1`, `v1 = 10`, `v2 = 20`,
TTL 5 written at instant 100, tick at instant 200. -/
theorem set_keeps_ttl_then_evicts_witness :
    (TypedStore.Set (sTTL1 : TypedStore Int Int) 1 20).ttl = sTTL1.ttl ∧
    lookupA ((TypedStore.SetWithTTL (zeroTS : TypedStore Int Int) 1 10 5 100).Set 1
      20).ttlList 1 = some (100 + 5) ∧
    (((TypedStore.SetWithTTL (zeroTS : TypedStore Int Int) 1 10 5 100).Set 1
      20).ExpireTTLTick 200).2 = [(1, 20)] ∧
    lookupA ((((TypedStore.SetWithTTL (zeroTS : TypedStore Int Int) 1 10 5 100).Set 1
      20).ExpireTTLTick 200).1).dataList 1 = none ∧
    lookupA ((((TypedStore.SetWithTTL (zeroTS : TypedStore Int Int) 1 10 5 100).Set 1
      20).ExpireTTLTick 200).1).ttlList 1 = none :=
  set_keeps_ttl_then_evicts sTTL1 1 10 20 5 100 200 (by decide)

theorem stepT_good_data {K V : Type} [DecidableEq K] [Inhabited V]
    {s : TypedStore K V} (hd : s.initDone = true) (hne : s.data ≠ none)
    (op : TOp K V) :
    (stepT s op).initDone = true ∧ (stepT s op).data ≠ none := by
  cases op with
  | set key value => exact ⟨rfl, by simp [stepT, TypedStore.Set]⟩
  | setWithTTL key value ttl now =>
    exact ⟨rfl, by simp [stepT, TypedStore.SetWithTTL]⟩
  | del key =>
    cases hl : lookupA s.dataList key with
    | none =>
      have he : stepT s (.del key) = s := by simp [stepT, TypedStore.Delete, hl]
      rw [he]
      exact ⟨hd, hne⟩
    | some v =>
      constructor
      · simp [stepT, TypedStore.Delete, hl, hd]
      · simp [stepT, TypedStore.Delete, hl]
  | tick now =>
    constructor
    · simp [stepT, TypedStore.ExpireTTLTick, hd]
    · cases hdata : s.data with
      | none => exact absurd hdata hne
      | some l => simp [stepT, TypedStore.ExpireTTLTick, hdata]

theorem dataAllocs_good {K V : Type} [DecidableEq K] [Inhabited V] :
    ∀ (ops : List (TOp K V)) (s : TypedStore K V),
    s.initDone = true → s.data ≠ none →
    dataAllocsT s ops = 0 ∧ (runT s ops).initDone = true ∧
      (runT s ops).data ≠ none
  | [], s, hd, hne => ⟨rfl, hd, hne⟩
  | op :: rest, s, hd, hne => by
    have hstep := stepT_good_data hd hne op
    have ih := dataAllocs_good rest (stepT s op) hstep.1 hstep.2
    have halloc : allocDataAt s op = false := by
      simp [allocDataAt, hd]
    refine ⟨?_, ih.2.1, ih.2.2⟩
    simp [dataAllocsT, halloc, ih.1]

theorem stepT_fresh_data {K V : Type} [DecidableEq K] [Inhabited V]
    {s : TypedStore K V} (h1 : s.initDone = false) (h2 : s.data = none)
    (op : TOp K V) (hw : isDataWrite op = false) :
    (stepT s op).initDone = false ∧ (stepT s op).data = none := by
  cases op with
  | set key value => simp [isDataWrite] at hw
  | setWithTTL key value ttl now => simp [isDataWrite] at hw
  | del key =>
    have hl : lookupA s.dataList key = none := by
      simp [TypedStore.dataList, h2, lookupA]
    have he : stepT s (.del key) = s := by simp [stepT, TypedStore.Delete, hl]
    rw [he]
    exact ⟨h1, h2⟩
  | tick now =>
    constructor
    · simp [stepT, TypedStore.ExpireTTLTick, h1]
    · simp [stepT, TypedStore.ExpireTTLTick, h2]

theorem stepT_write_good_data {K V : Type} [DecidableEq K] [Inhabited V]
    (s : TypedStore K V) (op : TOp K V) (hw : isDataWrite op = true) :
    (stepT s op).initDone = true ∧ (stepT s op).data ≠ none := by
  cases op with
  | set key value => exact ⟨rfl, by simp [stepT, TypedStore.Set]⟩
  | setWithTTL key value ttl now =>
    exact ⟨rfl, by simp [stepT, TypedStore.SetWithTTL]⟩
  | del key => simp [isDataWrite] at hw
  | tick now => simp [isDataWrite] at hw

theorem dataAllocs_fresh {K V : Type} [DecidableEq K] [Inhabited V] :
    ∀ (ops : List (TOp K V)) (s : TypedStore K V),
    s.initDone = false → s.data = none →
    (∃ op ∈ ops, isDataWrite op = true) →
    dataAllocsT s ops = 1 ∧ (runT s ops).data ≠ none
  | [], _, _, _, hex => by simp at hex
  | op :: rest, s, h1, h2, hex => by
    by_cases hw : isDataWrite op = true
    · have hgood := stepT_write_good_data s op hw
      have ih := dataAllocs_good rest (stepT s op) hgood.1 hgood.2
      have halloc : allocDataAt s op = true := by
        simp [allocDataAt, hw, h1, h2]
      refine ⟨?_, ih.2.2⟩
      simp [dataAllocsT, halloc, ih.1]
    · have hw' : isDataWrite op = false := by
        cases hcase : isDataWrite op
        · rfl
        · exact absurd hcase hw
      have hfresh := stepT_fresh_data h1 h2 op hw'
      have hex' : ∃ o ∈ rest, isDataWrite o = true := by
        rcases hex with ⟨o, ho, hwo⟩
        rcases List.mem_cons.mp ho with rfl | ho'
        · exact absurd hwo hw
        · exact ⟨o, ho', hwo⟩
      have ih := dataAllocs_fresh rest (stepT s op) hfresh.1 hfresh.2 hex'
      have halloc : allocDataAt s op = false := by
        simp [allocDataAt, hw']
      refine ⟨?_, ih.2⟩
      simp [dataAllocsT, halloc, ih.1]

theorem stepT_good_ttl {K V : Type} [DecidableEq K] [Inhabited V]
    {s : TypedStore K V} (hd : s.initTTLDone = true) (hne : s.ttl ≠ none)
    (op : TOp K V) :
    (stepT s op).initTTLDone = true ∧ (stepT s op).ttl ≠ none := by
  cases op with
  | set key value => exact ⟨hd, hne⟩
  | setWithTTL key value ttl now =>
    exact ⟨rfl, by simp [stepT, TypedStore.SetWithTTL]⟩
  | del key =>
    cases hl : lookupA s.dataList key with
    | none =>
      have he : stepT s (.del key) = s := by simp [stepT, TypedStore.Delete, hl]
      rw [he]
      exact ⟨hd, hne⟩
    | some v =>
      constructor
      · simp [stepT, TypedStore.Delete, hl, hd]
      · simp [stepT, TypedStore.Delete, hl]
        exact hne
  | tick now =>
    exact ⟨rfl, by simp [stepT, TypedStore.ExpireTTLTick]⟩

theorem ttlAllocs_good {K V : Type} [DecidableEq K] [Inhabited V] :
    ∀ (ops : List (TOp K V)) (s : TypedStore K V),
    s.initTTLDone = true → s.ttl ≠ none →
    ttlAllocsT s ops = 0 ∧ (runT s ops).initTTLDone = true ∧
      (runT s ops).ttl ≠ none
  | [], s, hd, hne => ⟨rfl, hd, hne⟩
  | op :: rest, s, hd, hne => by
    have hstep := stepT_good_ttl hd hne op
    have ih := ttlAllocs_good rest (stepT s op) hstep.1 hstep.2
    have halloc : allocTTLAt s op = false := by
      simp [allocTTLAt, hd]
    refine ⟨?_, ih.2.1, ih.2.2⟩
    simp [ttlAllocsT, halloc, ih.1]

theorem stepT_fresh_ttl {K V : Type} [DecidableEq K] [Inhabited V]
    {s : TypedStore K V} (h1 : s.initTTLDone = false) (h2 : s.ttl = none)
    (op : TOp K V) (hw : isTTLWrite op = false) :
    (stepT s op).initTTLDone = false ∧ (stepT s op).ttl = none := by
  cases op with
  | set key value => exact ⟨h1, h2⟩
  | setWithTTL key value ttl now => simp [isTTLWrite] at hw
  | del key =>
    cases hl : lookupA s.dataList key with
    | none =>
      have he : stepT s (.del key) = s := by simp [stepT, TypedStore.Delete, hl]
      rw [he]
      exact ⟨h1, h2⟩
    | some v =>
      constructor
      · simp [stepT, TypedStore.Delete, hl, h1]
      · simp [stepT, TypedStore.Delete, hl]
        exact h2
  | tick now => simp [isTTLWrite] at hw

theorem stepT_write_good_ttl {K V : Type} [DecidableEq K] [Inhabited V]
    (s : TypedStore K V) (op : TOp K V) (hw : isTTLWrite op = true) :
    (stepT s op).initTTLDone = true ∧ (stepT s op).ttl ≠ none := by
  cases op with
  | set key value => simp [isTTLWrite] at hw
  | setWithTTL key value ttl now =>
    exact ⟨rfl, by simp [stepT, TypedStore.SetWithTTL]⟩
  | del key => simp [isTTLWrite] at hw
  | tick now =>
    exact ⟨rfl, by simp [stepT, TypedStore.ExpireTTLTick]⟩

theorem ttlAllocs_fresh {K V : Type} [DecidableEq K] [Inhabited V] :
    ∀ (ops : List (TOp K V)) (s : TypedStore K V),
    s.initTTLDone = false → s.ttl = none →
    (∃ op ∈ ops, isTTLWrite op = true) →
    ttlAllocsT s ops = 1 ∧ (runT s ops).ttl ≠ none
  | [], _, _, _, hex => by simp at hex
  | op :: rest, s, h1, h2, hex => by
    by_cases hw : isTTLWrite op = true
    · have hgood := stepT_write_good_ttl s op hw
      have ih := ttlAllocs_good rest (stepT s op) hgood.1 hgood.2
      have halloc : allocTTLAt s op = true := by
        simp [allocTTLAt, hw, h1, h2]
      refine ⟨?_, ih.2.2⟩
      simp [ttlAllocsT, halloc, ih.1]
    · have hw' : isTTLWrite op = false := by
        cases hcase : isTTLWrite op
        · rfl
        · exact absurd hcase hw
      have hfresh := stepT_fresh_ttl h1 h2 op hw'
      have hex' : ∃ o ∈ rest, isTTLWrite o = true := by
        rcases hex with ⟨o, ho, hwo⟩
        rcases List.mem_cons.mp ho with rfl | ho'
        · exact absurd hwo hw
        · exact ⟨o, ho', hwo⟩
      have ih := ttlAllocs_fresh rest (stepT s op) hfresh.1 hfresh.2 hex'
      have halloc : allocTTLAt s op = false := by
        simp [allocTTLAt, hw']
      refine ⟨?_, ih.2⟩
      simp [ttlAllocsT, halloc, ih.1]

theorem setAllocs_good {K : Type} [DecidableEq K] :
    ∀ (writes : List (K × AnyVal)) (s : Store K),
    s.initDone = true → s.data ≠ none →
    setAllocs s writes = 0 ∧ (runSets s writes).initDone = true ∧
      (runSets s writes).data ≠ none
  | [], s, hd, hne => ⟨rfl, hd, hne⟩
  | w :: rest, s, hd, hne => by
    have hgood : (Set s w.1 w.2).initDone = true ∧ (Set s w.1 w.2).data ≠ none :=
      ⟨rfl, by simp [Set]⟩
    have ih := setAllocs_good rest (Set s w.1 w.2) hgood.1 hgood.2
    have halloc : s.allocOnSet = false := by
      simp [Store.allocOnSet, hd]
    refine ⟨?_, ih.2.1, ih.2.2⟩
    simp [setAllocs, halloc, ih.1]

/-- Claim C8.  Along any linearized history of operations serialized by the
store's lock: for the heterogeneous store, any nonempty history of `Set`
calls from the zero store performs exactly one allocation of the backing
map; for the homogeneous store, any history containing a backing-map write
performs exactly one backing-map allocation, and any history containing an
expiry-map-initializing operation (`SetWithTTL` or the sweep) performs
exactly one expiry-map allocation; in each case the resulting map is
allocated afterwards, so every later (and, by instantiating the theorem at
any prefix, every intermediate) writer observes it. -/
theorem lazy_alloc_once {K V : Type} [DecidableEq K] [Inhabited V]
    (writes : List (K × AnyVal)) (ops : List (TOp K V))
    (hw : writes ≠ [])
    (hdw : ∃ op ∈ ops, isDataWrite op = true)
    (htw : ∃ op ∈ ops, isTTLWrite op = true) :
    (setAllocs zeroStore writes = 1 ∧ (runSets zeroStore writes).data ≠ none) ∧
    (dataAllocsT zeroTS ops = 1 ∧ (runT zeroTS ops).data ≠ none) ∧
    (ttlAllocsT zeroTS ops = 1 ∧ (runT zeroTS ops).ttl ≠ none) := by
  refine ⟨?_, dataAllocs_fresh ops zeroTS rfl rfl hdw,
    ttlAllocs_fresh ops zeroTS rfl rfl htw⟩
  cases writes with
  | nil => exact absurd rfl hw
  | cons w rest =>
    have hgood : (Set (zeroStore : Store K) w.1 w.2).initDone = true ∧
        (Set (zeroStore : Store K) w.1 w.2).data ≠ none :=
      ⟨rfl, by simp [Set]⟩
    have ih := setAllocs_good rest (Set zeroStore w.1 w.2) hgood.1 hgood.2
    have halloc : (zeroStore : Store K).allocOnSet = true := rfl
    refine ⟨?_, ih.2.2⟩
    simp [setAllocs, halloc, ih.1]

/-- Witness for C8: one `Set` call on the heterogeneous store, and one
`SetWithTTL` followed by a plain `Set` and a sweep tick on the homogeneous
store, each perform exactly one allocation per map and leave the maps
allocated. -/
theorem lazy_alloc_once_witness :
    (setAllocs (zeroStore : Store Int) [(1, ⟨.tInt, (5 : Int)⟩)] = 1 ∧
      (runSets (zeroStore : Store Int) [(1, ⟨.tInt, (5 : Int)⟩)]).data ≠ none) ∧
    (dataAllocsT (zeroTS : TypedStore Int Int)
        [TOp.setWithTTL 1 7 1 0, TOp.set 2 9, TOp.tick 100] = 1 ∧
      (runT (zeroTS : TypedStore Int Int)
        [TOp.setWithTTL 1 7 1 0, TOp.set 2 9, TOp.tick 100]).data ≠ none) ∧
    (ttlAllocsT (zeroTS : TypedStore Int Int)
        [TOp.setWithTTL 1 7 1 0, TOp.set 2 9, TOp.tick 100] = 1 ∧
      (runT (zeroTS : TypedStore Int Int)
        [TOp.setWithTTL 1 7 1 0, TOp.set 2 9, TOp.tick 100]).ttl ≠ none) :=
  lazy_alloc_once [(1, ⟨.tInt, (5 : Int)⟩)]
    [TOp.setWithTTL 1 7 1 0, TOp.set 2 9, TOp.tick 100]
    (by simp) (by decide) (by decide)

end Memkey
